import Mathlib

/-!
Shallow embedding of `src/index.js` (class `PredictivePrefetcher`) from the
prefetch-predict library, together with proofs of the specification claims.

Modelling conventions:
* A JavaScript `Map` is an insertion-ordered association list
  `List (String × α)`; `get`/`set`/`has` mimic `Map` semantics (update in
  place, insert at the end).
* JavaScript numbers are embedded as exact rationals `ℚ` (counts as `ℕ`);
  the only real-valued quantities are decay factors and scores, because
  `Math.exp` is transcendental, so those live in `ℝ`.
* `Date.now()` is an explicit `now : ℚ` argument; the network `fetch`
  collaborator is an oracle `fetchOk : String → Bool` saying whether the
  fetch of a given URL succeeds, and `doneAt : String → ℚ` gives the
  completion timestamp observed in its success handler.
* `this.currentState` starts as `null`, hence `Option String`; JavaScript
  truthiness makes both `null` and the empty string falsy.
-/

namespace PrefetchPredict

/-- Insertion-ordered association list, the model of a JS `Map` with string
keys. -/
abbrev AList (α : Type) := List (String × α)

/-- `m.get(k)`: value of the first (and, for lists built by `alistSet`, only)
entry with key `k`. -/
def alistGet {α : Type} (m : AList α) (k : String) : Option α :=
  (m.find? (fun e => e.1 == k)).map (·.2)

/-- `m.has(k)`. -/
def alistHas {α : Type} (m : AList α) (k : String) : Bool :=
  m.any (fun e => e.1 == k)

/-- `m.set(k, v)`: update in place when the key is present, otherwise append
at the end (JS `Map` insertion order). -/
def alistSet {α : Type} (m : AList α) (k : String) (v : α) : AList α :=
  if alistHas m k then m.map (fun e => if e.1 == k then (k, v) else e)
  else m ++ [(k, v)]

/-- JS `x || d` for an optional numeric option: `undefined` and `0` are
falsy, so both select the default `d`. -/
def jsOrZ (x : Option ℤ) (d : ℤ) : ℤ :=
  match x with
  | none => d
  | some v => if v = 0 then d else v

/-- JS `x || d` for an optional rational option (`undefined` and `0` falsy). -/
def jsOrQ (x : Option ℚ) (d : ℚ) : ℚ :=
  match x with
  | none => d
  | some v => if v = 0 then d else v

/-- JS `x || d` on a rational already at hand (used for `cost || 1`). -/
def jsFalsyOr (x d : ℚ) : ℚ :=
  if x = 0 then d else x

/-- JS truthiness of `this.currentState` (`null` and `""` are falsy). -/
def jsTruthy : Option String → Bool
  | none => false
  | some s => s != ""

/-- JS `hay.includes(sub)`: substring containment. -/
def strIncludes (hay sub : String) : Bool :=
  (List.range (hay.data.length + 1)).any (fun i => sub.data.isPrefixOf (hay.data.drop i))

/-- JS `l.slice(0, endIdx)`; a negative end counts from the end of the list. -/
def jsSlice {α : Type} (l : List α) (endIdx : ℤ) : List α :=
  if endIdx < 0 then l.take (l.length - endIdx.natAbs) else l.take endIdx.toNat

/-- One record of `this.resources`: `{size, latency, lastUsed}`. -/
structure ResourceEntry where
  size : ℚ
  latency : ℚ
  lastUsed : ℚ
deriving DecidableEq

/-- An element of the list returned by `predictNext`. -/
structure Prediction where
  state : String
  probability : ℚ
deriving DecidableEq

/-- An element of the list returned by `scoreResources`. -/
structure ScoredCandidate where
  url : String
  score : ℝ

/-- The instance state of `class PredictivePrefetcher`. -/
structure Prefetcher where
  maxPrefetch : ℤ
  decayRate : ℚ
  transitions : AList (AList ℕ)
  resources : AList ResourceEntry
  currentState : Option String
deriving DecidableEq

/-- `new PredictivePrefetcher(options)`:
`maxPrefetch = options.maxPrefetch || 3`, `decayRate = options.decayRate || 0.1`,
empty stores, `currentState = null`. -/
def mkPrefetcher (maxPrefetchOpt : Option ℤ) (decayRateOpt : Option ℚ) : Prefetcher :=
  { maxPrefetch := jsOrZ maxPrefetchOpt 3
    decayRate := jsOrQ decayRateOpt (1 / 10)
    transitions := []
    resources := []
    currentState := none }

/-- `track(eventType, state)`: when `currentState` is truthy and differs from
`state`, bump the `(currentState → state)` count (`|| new Map()` and `|| 0`
become `getD`); always reassign `currentState`. -/
def track (p : Prefetcher) (eventType state : String) : Prefetcher :=
  match p.currentState with
  | some cs =>
    if cs ≠ "" ∧ cs ≠ state then
      let nextMap := (alistGet p.transitions cs).getD []
      let count := (alistGet nextMap state).getD 0
      { p with
        transitions := alistSet p.transitions cs (alistSet nextMap state (count + 1))
        currentState := some state }
    else { p with currentState := some state }
  | none => { p with currentState := some state }

/-- `addResource(url, {size, latency})`: upsert the entry, stamping
`lastUsed` with the current time. -/
def addResource (p : Prefetcher) (url : String) (size latency : ℚ) (now : ℚ) : Prefetcher :=
  { p with resources := alistSet p.resources url ⟨size, latency, now⟩ }

/-- `predictNext()`: empty when `currentState` is falsy or has no recorded
transitions; otherwise probability `count / total` per destination, sorted by
probability descending (the comparator `(a, b) => b.probability - a.probability`,
stably). -/
def predictNext (p : Prefetcher) : List Prediction :=
  match p.currentState with
  | none => []
  | some cs =>
    if cs = "" then []
    else
      match alistGet p.transitions cs with
      | none => []
      | some nextMap =>
        let totalTransitions : ℕ := (nextMap.map (·.2)).sum
        let predictions := nextMap.map
          (fun e => { state := e.1, probability := (e.2 : ℚ) / (totalTransitions : ℚ) })
        predictions.insertionSort (fun a b => b.probability ≤ a.probability)

/-- The score of one `(prediction, resource)` match inside `scoreResources`:
`(probability * exp(-decayRate * (now - lastUsed) / 1000)) / (size * latency || 1)`. -/
noncomputable def scoreOne (decayRate : ℚ) (now : ℚ) (probability : ℚ) (r : ResourceEntry) : ℝ :=
  let timeElapsed : ℚ := (now - r.lastUsed) / 1000
  let decay : ℝ := Real.exp (-(decayRate : ℝ) * (timeElapsed : ℝ))
  let cost : ℚ := r.size * r.latency
  ((probability : ℝ) * decay) / ((jsFalsyOr cost 1 : ℚ) : ℝ)

open Classical in
/-- `scoreResources(predictions)`: for every prediction, every registered
resource whose URL contains the predicted state contributes one scored entry;
the result is sorted by score descending. -/
noncomputable def scoreResources (p : Prefetcher) (now : ℚ) (predictions : List Prediction) :
    List ScoredCandidate :=
  let scores := predictions.flatMap (fun pr =>
    (p.resources.filter (fun ru => strIncludes ru.1 pr.state)).map
      (fun ru => { url := ru.1, score := scoreOne p.decayRate now pr.probability ru.2 }))
  scores.insertionSort (fun a b => b.score ≤ a.score)

/-- The success handler of one fetch in `prefetch`: on success, if the URL is
registered, set its `lastUsed` to the completion time; a failed fetch is
caught and changes nothing. -/
def touchOne (resources : AList ResourceEntry) (fetchOk : String → Bool) (doneAt : String → ℚ)
    (url : String) : AList ResourceEntry :=
  if fetchOk url then
    match alistGet resources url with
    | some r => alistSet resources url { r with lastUsed := doneAt url }
    | none => resources
  else resources

/-- `prefetch(urls)`: truncate to the first `maxPrefetch` candidates, dispatch
one fetch per candidate, apply each success handler, and resolve after all
settle. Returns the updated state and the list of dispatched URLs. -/
def prefetchStep (p : Prefetcher) (urls : List ScoredCandidate) (fetchOk : String → Bool)
    (doneAt : String → ℚ) : Prefetcher × List String :=
  let toFetch := jsSlice urls p.maxPrefetch
  let dispatched := toFetch.map (·.url)
  ({ p with resources := dispatched.foldl (fun rs u => touchOne rs fetchOk doneAt u) p.resources },
    dispatched)

/-- `optimize()`: predict, score, prefetch; return early (no side effect, no
dispatch) when either intermediate list is empty. -/
noncomputable def optimize (p : Prefetcher) (now : ℚ) (fetchOk : String → Bool)
    (doneAt : String → ℚ) : Prefetcher × List String :=
  let predictions := predictNext p
  if predictions.length = 0 then (p, [])
  else
    let scoredResources := scoreResources p now predictions
    if scoredResources.length = 0 then (p, [])
    else prefetchStep p scoredResources fetchOk doneAt

/-- The `predictNext` method as a state transformer: its body assigns to no
field of `this`, so the receiver state passes through unchanged. -/
def predictNextM (p : Prefetcher) : Prefetcher × List Prediction :=
  (p, predictNext p)

/-- The `scoreResources` method as a state transformer: its body assigns to no
field of `this`, so the receiver state passes through unchanged. -/
noncomputable def scoreResourcesM (p : Prefetcher) (now : ℚ) (predictions : List Prediction) :
    Prefetcher × List ScoredCandidate :=
  (p, scoreResources p now predictions)

/-- States reachable from a freshly constructed prefetcher by the public
operations. -/
inductive Reachable : Prefetcher → Prop
  | init (maxPrefetchOpt : Option ℤ) (decayRateOpt : Option ℚ) :
      Reachable (mkPrefetcher maxPrefetchOpt decayRateOpt)
  | track {p : Prefetcher} (eventType state : String) :
      Reachable p → Reachable (track p eventType state)
  | addResource {p : Prefetcher} (url : String) (size latency now : ℚ) :
      Reachable p → Reachable (addResource p url size latency now)
  | optimize {p : Prefetcher} (now : ℚ) (fetchOk : String → Bool) (doneAt : String → ℚ) :
      Reachable p → Reachable (optimize p now fetchOk doneAt).1

/-- Every count stored in the transition table is at least 1. -/
def countsOK (p : Prefetcher) : Prop :=
  ∀ src inner, (src, inner) ∈ p.transitions → ∀ dst c, (dst, c) ∈ inner → 1 ≤ c

/-! ### Association-list lemmas -/

theorem alistGet_cons {α : Type} (a : String × α) (t : AList α) (k : String) :
    alistGet (a :: t) k = if a.1 = k then some a.2 else alistGet t k := by
  by_cases h : a.1 = k
  · simp [alistGet, List.find?_cons, h]
  · simp [alistGet, List.find?_cons, h, beq_eq_false_iff_ne.mpr h]

theorem mem_alistSet {α : Type} {m : AList α} {k : String} {v : α} {e : String × α}
    (h : e ∈ alistSet m k v) : e ∈ m ∨ e = (k, v) := by
  unfold alistSet at h
  split at h
  · rcases List.mem_map.mp h with ⟨a, ha, rfl⟩
    by_cases hk : a.1 = k
    · exact Or.inr (by simp [hk])
    · refine Or.inl ?_
      simpa [hk] using ha
  · rcases List.mem_append.mp h with h | h
    · exact Or.inl h
    · exact Or.inr (by simpa using h)

theorem alistGet_map_update_ne {α : Type} (m : AList α) (k k' : String) (v : α)
    (h : k' ≠ k) :
    alistGet (m.map (fun e => if e.1 == k then (k, v) else e)) k' = alistGet m k' := by
  induction m with
  | nil => rfl
  | cons a t ih =>
    simp only [beq_iff_eq] at ih
    by_cases ha : a.1 = k
    · simp [alistGet_cons, ha, (Ne.symm h : ¬ k = k'), ih]
    · simp [alistGet_cons, ha, ih]

theorem alistGet_append_ne {α : Type} (m : AList α) (k k' : String) (v : α) (h : k' ≠ k) :
    alistGet (m ++ [(k, v)]) k' = alistGet m k' := by
  induction m with
  | nil => simp [alistGet, alistGet_cons, (Ne.symm h : ¬ k = k')]
  | cons a t ih =>
    rw [List.cons_append, alistGet_cons, alistGet_cons]
    by_cases hk : a.1 = k'
    · simp [hk]
    · simp [hk, ih]

theorem alistGet_set_ne {α : Type} (m : AList α) (k k' : String) (v : α) (h : k' ≠ k) :
    alistGet (alistSet m k v) k' = alistGet m k' := by
  unfold alistSet
  by_cases hh : alistHas m k = true
  · rw [if_pos hh]
    exact alistGet_map_update_ne m k k' v h
  · rw [if_neg hh]
    exact alistGet_append_ne m k k' v h

theorem alistGet_append_of_not_has {α : Type} (m : AList α) (k : String) (v : α)
    (h : alistHas m k = false) : alistGet (m ++ [(k, v)]) k = some v := by
  induction m with
  | nil => simp [alistGet, alistGet_cons]
  | cons a t ih =>
    simp only [alistHas, List.any_cons, Bool.or_eq_false_iff] at h
    have ha : ¬ a.1 = k := by simpa using h.1
    rw [List.cons_append, alistGet_cons, if_neg ha]
    exact ih h.2

theorem alistGet_map_update_self {α : Type} (m : AList α) (k : String) (v : α)
    (h : alistHas m k = true) :
    alistGet (m.map (fun e => if e.1 == k then (k, v) else e)) k = some v := by
  induction m with
  | nil => simp [alistHas] at h
  | cons a t ih =>
    by_cases ha : a.1 = k
    · simp [alistGet_cons, ha]
    · have ht : alistHas t k = true := by
        simpa [alistHas, ha] using h
      have iht := ih ht
      simp only [beq_iff_eq] at iht
      simp [alistGet_cons, ha, iht]

theorem alistGet_set_self {α : Type} (m : AList α) (k : String) (v : α) :
    alistGet (alistSet m k v) k = some v := by
  unfold alistSet
  by_cases h : alistHas m k = true
  · rw [if_pos h]
    exact alistGet_map_update_self m k v h
  · rw [if_neg h]
    exact alistGet_append_of_not_has m k v (by simpa using h)

theorem alistGet_mem {α : Type} {m : AList α} {k : String} {v : α}
    (h : alistGet m k = some v) : (k, v) ∈ m := by
  induction m with
  | nil => simp [alistGet] at h
  | cons a t ih =>
    rw [alistGet_cons] at h
    by_cases ha : a.1 = k
    · rw [if_pos ha] at h
      simp only [Option.some.injEq] at h
      have he : (k, v) = a := by rw [← ha, ← h]
      rw [he]
      exact List.mem_cons_self a t
    · rw [if_neg ha] at h
      exact List.mem_cons_of_mem a (ih h)

/-! ### Frame and invariant lemmas -/

theorem track_transitions_cases (p : Prefetcher) (et s : String) :
    (track p et s).transitions = p.transitions ∨
    ∃ cs, p.currentState = some cs ∧
      (track p et s).transitions =
        alistSet p.transitions cs
          (alistSet ((alistGet p.transitions cs).getD []) s
            (((alistGet ((alistGet p.transitions cs).getD []) s).getD 0) + 1)) := by
  unfold track
  cases hcs : p.currentState with
  | none => exact Or.inl rfl
  | some cs =>
    dsimp only
    by_cases hcond : cs ≠ "" ∧ cs ≠ s
    · rw [if_pos hcond]
      exact Or.inr ⟨cs, rfl, rfl⟩
    · rw [if_neg hcond]
      exact Or.inl rfl

theorem prefetchStep_fst_frame (p : Prefetcher) (urls : List ScoredCandidate)
    (fetchOk : String → Bool) (doneAt : String → ℚ) :
    (prefetchStep p urls fetchOk doneAt).1.transitions = p.transitions ∧
    (prefetchStep p urls fetchOk doneAt).1.currentState = p.currentState ∧
    (prefetchStep p urls fetchOk doneAt).1.maxPrefetch = p.maxPrefetch ∧
    (prefetchStep p urls fetchOk doneAt).1.decayRate = p.decayRate :=
  ⟨rfl, rfl, rfl, rfl⟩

theorem optimize_fst_frame (p : Prefetcher) (now : ℚ) (fetchOk : String → Bool)
    (doneAt : String → ℚ) :
    (optimize p now fetchOk doneAt).1.transitions = p.transitions ∧
    (optimize p now fetchOk doneAt).1.currentState = p.currentState := by
  unfold optimize
  by_cases h1 : (predictNext p).length = 0
  · simp [h1]
  · by_cases h2 : (scoreResources p now (predictNext p)).length = 0
    · simp [h1, h2]
    · simp [h1, h2, prefetchStep]

theorem countsOK_mk (mOpt : Option ℤ) (dOpt : Option ℚ) :
    countsOK (mkPrefetcher mOpt dOpt) := by
  intro src inner h
  simp [mkPrefetcher] at h

theorem countsOK_track {p : Prefetcher} (h : countsOK p) (et s : String) :
    countsOK (track p et s) := by
  intro src inner hm dst c hc
  rcases track_transitions_cases p et s with ht | ⟨cs, hcs, ht⟩
  · rw [ht] at hm
    exact h src inner hm dst c hc
  · rw [ht] at hm
    rcases mem_alistSet hm with hm' | he
    · exact h src inner hm' dst c hc
    · injection he with h1 h2
      subst h2
      rcases mem_alistSet hc with hc' | he2
      · cases hg : alistGet p.transitions cs with
        | none =>
          rw [hg] at hc'
          simp at hc'
        | some m0 =>
          rw [hg] at hc'
          simp only [Option.getD_some] at hc'
          exact h cs m0 (alistGet_mem hg) dst c hc'
      · injection he2 with h3 h4
        omega

theorem reachable_countsOK {p : Prefetcher} (h : Reachable p) : countsOK p := by
  induction h with
  | init mOpt dOpt => exact countsOK_mk mOpt dOpt
  | track eventType state hp ih => exact countsOK_track ih eventType state
  | addResource url size latency now hp ih =>
    intro src inner hm dst c hc
    exact ih src inner hm dst c hc
  | optimize now fetchOk doneAt hp ih =>
    intro src inner hm dst c hc
    rw [(optimize_fst_frame _ _ _ _).1] at hm
    exact ih src inner hm dst c hc

/-! ### predictNext lemmas -/

theorem predictNext_eq {p : Prefetcher} {cs : String} {nextMap : AList ℕ}
    (h1 : p.currentState = some cs) (h2 : cs ≠ "")
    (h3 : alistGet p.transitions cs = some nextMap) :
    predictNext p =
      (nextMap.map (fun e =>
        { state := e.1,
          probability :=
            (e.2 : ℚ) / (((nextMap.map (·.2)).sum : ℕ) : ℚ) })).insertionSort
        (fun a b => b.probability ≤ a.probability) := by
  unfold predictNext
  rw [h1]
  dsimp only
  rw [if_neg h2, h3]

theorem predictNext_perm {p : Prefetcher} {cs : String} {nextMap : AList ℕ}
    (h1 : p.currentState = some cs) (h2 : cs ≠ "")
    (h3 : alistGet p.transitions cs = some nextMap) :
    (predictNext p).Perm
      (nextMap.map (fun e =>
        { state := e.1,
          probability := (e.2 : ℚ) / (((nextMap.map (·.2)).sum : ℕ) : ℚ) })) := by
  rw [predictNext_eq h1 h2 h3]
  exact List.perm_insertionSort _ _

theorem predictNext_sorted_desc {p : Prefetcher} {cs : String} {nextMap : AList ℕ}
    (h1 : p.currentState = some cs) (h2 : cs ≠ "")
    (h3 : alistGet p.transitions cs = some nextMap) :
    (predictNext p).Pairwise (fun a b => b.probability ≤ a.probability) := by
  rw [predictNext_eq h1 h2 h3]
  haveI : IsTotal Prediction (fun a b => b.probability ≤ a.probability) :=
    ⟨fun a b => le_total b.probability a.probability⟩
  haveI : IsTrans Prediction (fun a b => b.probability ≤ a.probability) :=
    ⟨fun _ _ _ hab hbc => le_trans hbc hab⟩
  exact List.sorted_insertionSort (fun a b : Prediction => b.probability ≤ a.probability) _

/-! ### prefetch fold lemmas -/

theorem foldl_touchOne_get_of_not_ok {fetchOk : String → Bool} {doneAt : String → ℚ}
    {u : String} (hf : fetchOk u = false) :
    ∀ (l : List String) (rs : AList ResourceEntry),
      alistGet (l.foldl (fun rs v => touchOne rs fetchOk doneAt v) rs) u = alistGet rs u := by
  intro l
  induction l with
  | nil => intro rs; rfl
  | cons v t ih =>
    intro rs
    rw [List.foldl_cons, ih]
    unfold touchOne
    by_cases hv : fetchOk v = true
    · rw [if_pos hv]
      cases hg : alistGet rs v with
      | none => rfl
      | some r =>
        have hvu : u ≠ v := by
          intro h
          rw [h, hv] at hf
          exact Bool.true_eq_false.mp hf
        exact alistGet_set_ne rs v u _ hvu
    · rw [if_neg hv]

theorem foldl_touchOne_get_of_not_mem {fetchOk : String → Bool} {doneAt : String → ℚ}
    {u : String} :
    ∀ (l : List String) (rs : AList ResourceEntry), u ∉ l →
      alistGet (l.foldl (fun rs v => touchOne rs fetchOk doneAt v) rs) u = alistGet rs u := by
  intro l
  induction l with
  | nil => intro rs _; rfl
  | cons v t ih =>
    intro rs hm
    have hvu : u ≠ v := fun h => hm (h ▸ List.mem_cons_self v t)
    have hmt : u ∉ t := fun h => hm (List.mem_cons_of_mem v h)
    rw [List.foldl_cons, ih _ hmt]
    unfold touchOne
    by_cases hv : fetchOk v = true
    · rw [if_pos hv]
      cases hg : alistGet rs v with
      | none => rfl
      | some r => exact alistGet_set_ne rs v u _ hvu
    · rw [if_neg hv]

theorem foldl_touchOne_get_of_ok {fetchOk : String → Bool} {doneAt : String → ℚ}
    {u : String} (hf : fetchOk u = true) :
    ∀ (l : List String) (rs : AList ResourceEntry) (r : ResourceEntry),
      alistGet rs u = some r → u ∈ l →
      alistGet (l.foldl (fun rs v => touchOne rs fetchOk doneAt v) rs) u =
        some { r with lastUsed := doneAt u } := by
  intro l
  induction l with
  | nil =>
    intro rs r _ h
    exact absurd h (List.not_mem_nil u)
  | cons v t ih =>
    intro rs r hg hm
    rw [List.foldl_cons]
    by_cases hvu : v = u
    · subst hvu
      have h1 : alistGet (touchOne rs fetchOk doneAt v) v =
          some { r with lastUsed := doneAt v } := by
        unfold touchOne
        rw [if_pos hf, hg]
        exact alistGet_set_self rs v _
      by_cases hmt : v ∈ t
      · exact ih _ { r with lastUsed := doneAt v } h1 hmt
      · rw [foldl_touchOne_get_of_not_mem t _ hmt]
        exact h1
    · have h1 : alistGet (touchOne rs fetchOk doneAt v) u = some r := by
        unfold touchOne
        by_cases hv : fetchOk v = true
        · rw [if_pos hv]
          cases hgv : alistGet rs v with
          | none => exact hg
          | some rv =>
            rw [alistGet_set_ne rs v u _ (fun h => hvu h.symm)]
            exact hg
        · rw [if_neg hv]
          exact hg
      have hmt : u ∈ t := by
        rcases List.mem_cons.mp hm with h | h
        · exact absurd h.symm hvu
        · exact h
      exact ih _ _ h1 hmt

/-! ### scoreResources lemmas -/

theorem mem_scoreResources {p : Prefetcher} {now : ℚ} {predictions : List Prediction}
    {c : ScoredCandidate} (h : c ∈ scoreResources p now predictions) :
    ∃ pr ∈ predictions, ∃ ru ∈ p.resources,
      c = { url := ru.1, score := scoreOne p.decayRate now pr.probability ru.2 } := by
  unfold scoreResources at h
  have h2 := (List.mem_insertionSort _).mp h
  rcases List.mem_flatMap.mp h2 with ⟨pr, hpr, hc⟩
  rcases List.mem_map.mp hc with ⟨ru, hru, rfl⟩
  exact ⟨pr, hpr, ru, List.mem_of_mem_filter hru, rfl⟩

theorem scoreOne_nonneg {decayRate now probability : ℚ} {r : ResourceEntry}
    (hp : 0 ≤ probability) (hs : 0 ≤ r.size) (hl : 0 ≤ r.latency) :
    0 ≤ scoreOne decayRate now probability r := by
  unfold scoreOne
  apply div_nonneg
  · apply mul_nonneg
    · exact_mod_cast hp
    · exact (Real.exp_pos _).le
  · have h : (0 : ℚ) ≤ jsFalsyOr (r.size * r.latency) 1 := by
      unfold jsFalsyOr
      split
      · norm_num
      · exact mul_nonneg hs hl
    exact_mod_cast h

/-! ### Dispatch-count helper and sample states -/

theorem prefetchStep_length_le (p : Prefetcher) (cands : List ScoredCandidate)
    (fetchOk : String → Bool) (doneAt : String → ℚ) (h : 0 ≤ p.maxPrefetch) :
    ((prefetchStep p cands fetchOk doneAt).2.length : ℤ) ≤ p.maxPrefetch := by
  unfold prefetchStep jsSlice
  rw [if_neg (not_lt.mpr h)]
  simp only [List.length_map]
  have h1 : (cands.take p.maxPrefetch.toNat).length ≤ p.maxPrefetch.toNat :=
    (List.length_take _ _).le.trans (min_le_left _ _)
  have h2 : (p.maxPrefetch.toNat : ℤ) = p.maxPrefetch := Int.toNat_of_nonneg h
  omega

/-- All scores produced by `scoreResources` on the given inputs are
nonnegative. -/
def scoresOK (p : Prefetcher) (now : ℚ) (predictions : List Prediction) : Prop :=
  ∀ c ∈ scoreResources p now predictions, 0 ≤ c.score

/-- A zero product `size * latency` is replaced by the divisor 1. -/
def divisorOK : Prop :=
  ∀ sz lat : ℚ, sz * lat = 0 → jsFalsyOr (sz * lat) 1 = 1

/-- A sample reachable state: `/home → /products → /home`, so the current
state `/home` has the single recorded outgoing transition `/products ↦ 1`. -/
def exampleState : Prefetcher :=
  track (track (track (mkPrefetcher none none) "pv" "/home") "pv" "/products") "pv" "/home"

/-- A sample state whose current state is the empty string. -/
def emptyStringState : Prefetcher :=
  track (mkPrefetcher none none) "x" ""

/-- A sample state with two registered resources. -/
def twoResourceState : Prefetcher :=
  addResource (addResource (mkPrefetcher none none) "ok" 1 1 0) "bad" 2 2 0

/-! ### Claim theorems -/

/-- Claim C1, counterexample to the claim as stated: a prefetcher constructed
with maxPrefetch option 0 does not perform zero fetches — the constructor
evaluates the JS expression with 0 falsy, so the effective bound is the
default 3 and the single candidate is dispatched. -/
theorem maxPrefetch_zero_dispatches :
    (prefetchStep (mkPrefetcher (some 0) none) [⟨"/a", 0⟩]
        (fun _ => true) (fun _ => 0)).2 = ["/a"] ∧
    ¬ ((prefetchStep (mkPrefetcher (some 0) none) [⟨"/a", 0⟩]
        (fun _ => true) (fun _ => 0)).2.length ≤ 0) := by
  constructor
  · rfl
  · intro h
    have he : (prefetchStep (mkPrefetcher (some 0) none) [⟨"/a", 0⟩]
        (fun _ => true) (fun _ => 0)).2.length = 1 := rfl
    rw [he] at h
    omega

/-- Claim C1 (amended): for a prefetcher constructed with maxPrefetch option
m ≥ 1, `prefetch` dispatches at most m fetch operations; a maxPrefetch option
of 0 is falsy under the constructor defaulting, so the effective bound is the
default 3 and at most 3 fetches are dispatched. -/
theorem prefetch_dispatch_bound (m : ℤ) (dOpt : Option ℚ) (cands : List ScoredCandidate)
    (fetchOk : String → Bool) (doneAt : String → ℚ) :
    (1 ≤ m →
      ((prefetchStep (mkPrefetcher (some m) dOpt) cands fetchOk doneAt).2.length : ℤ) ≤ m) ∧
    (prefetchStep (mkPrefetcher (some 0) dOpt) cands fetchOk doneAt).2.length ≤ 3 := by
  constructor
  · intro hm
    have h0 : (mkPrefetcher (some m) dOpt).maxPrefetch = m := by
      show jsOrZ (some m) 3 = m
      unfold jsOrZ
      dsimp only
      rw [if_neg (by omega : ¬ m = 0)]
    have h := prefetchStep_length_le (mkPrefetcher (some m) dOpt) cands fetchOk doneAt
      (by rw [h0]; omega)
    rw [h0] at h
    exact h
  · have h0 : (mkPrefetcher (some 0) dOpt).maxPrefetch = 3 := rfl
    have h := prefetchStep_length_le (mkPrefetcher (some 0) dOpt) cands fetchOk doneAt
      (by rw [h0]; omega)
    rw [h0] at h
    omega

/-- Witness for C1 (amended) at m = 2 with three candidates, and the
0-option branch with one candidate. -/
theorem prefetch_dispatch_bound_witness :
    ((prefetchStep (mkPrefetcher (some 2) none) [⟨"a", 0⟩, ⟨"b", 0⟩, ⟨"c", 0⟩]
        (fun _ => true) (fun _ => 0)).2.length : ℤ) ≤ 2 ∧
    (prefetchStep (mkPrefetcher (some 0) none) [⟨"a", 0⟩]
        (fun _ => true) (fun _ => 0)).2.length ≤ 3 :=
  ⟨(prefetch_dispatch_bound 2 none [⟨"a", 0⟩, ⟨"b", 0⟩, ⟨"c", 0⟩]
      (fun _ => true) (fun _ => 0)).1 (by norm_num),
   (prefetch_dispatch_bound 0 none [⟨"a", 0⟩] (fun _ => true) (fun _ => 0)).2⟩

/-- Claim C2: in any reachable state whose current state has at least one
recorded outgoing transition, the probabilities returned by `predictNext`
sum to exactly 1 (hence within any floating-point tolerance). -/
theorem predict_probabilities_sum_one {p : Prefetcher} {cs : String} {nextMap : AList ℕ}
    (hr : Reachable p) (h1 : p.currentState = some cs) (h2 : cs ≠ "")
    (h3 : alistGet p.transitions cs = some nextMap) (h4 : nextMap ≠ []) :
    ((predictNext p).map (·.probability)).sum = 1 := by
  have hpos := reachable_countsOK hr cs nextMap (alistGet_mem h3)
  have hN0 : (nextMap.map (·.2)).sum ≠ 0 := by
    cases nextMap with
    | nil => exact absurd rfl h4
    | cons a t =>
      have ha := hpos a.1 a.2 (by simp)
      have he : ((a :: t).map (·.2)).sum = a.2 + (t.map (·.2)).sum := by simp
      omega
  have hperm := (predictNext_perm h1 h2 h3).map (fun pr : Prediction => pr.probability)
  rw [List.Perm.sum_eq hperm, List.map_map]
  have hcomp : ((fun pr : Prediction => pr.probability) ∘
      (fun e : String × ℕ =>
        { state := e.1,
          probability := (e.2 : ℚ) / (((nextMap.map (·.2)).sum : ℕ) : ℚ) })) =
      fun e : String × ℕ => (e.2 : ℚ) / (((nextMap.map (·.2)).sum : ℕ) : ℚ) := rfl
  rw [hcomp]
  simp only [div_eq_mul_inv]
  rw [List.sum_map_mul_right]
  have hcast : (nextMap.map fun e : String × ℕ => (e.2 : ℚ)).sum =
      (((nextMap.map (·.2)).sum : ℕ) : ℚ) := by
    rw [Nat.cast_list_sum, List.map_map]
    rfl
  rw [hcast]
  exact mul_inv_cancel₀ (by exact_mod_cast hN0)

/-- Witness for C2 on the sample history. -/
theorem predict_probabilities_sum_one_witness :
    ((predictNext exampleState).map (·.probability)).sum = 1 :=
  predict_probabilities_sum_one
    (Reachable.track "pv" "/home" (Reachable.track "pv" "/products"
      (Reachable.track "pv" "/home" (Reachable.init none none))))
    rfl (by decide) rfl (by decide)

/-- Claim C3: for predictions with probabilities in [0,1], resources with
nonnegative size and latency, and nonnegative decayRate, every score produced
by `scoreResources` is nonnegative (and, being a real number of the model,
finite — no exception is possible since the embedding is a total function);
and a zero product of size and latency is replaced by the divisor 1. -/
theorem scoreResources_safe {p : Prefetcher} {now : ℚ} {predictions : List Prediction}
    (hp : ∀ pr ∈ predictions, 0 ≤ pr.probability ∧ pr.probability ≤ 1)
    (hres : ∀ ru ∈ p.resources, 0 ≤ ru.2.size ∧ 0 ≤ ru.2.latency)
    (hd : 0 ≤ p.decayRate) :
    scoresOK p now predictions ∧ divisorOK := by
  constructor
  · intro c hc
    rcases mem_scoreResources hc with ⟨pr, hpr, ru, hru, rfl⟩
    exact scoreOne_nonneg (hp pr hpr).1 (hres ru hru).1 (hres ru hru).2
  · intro sz lat h
    unfold jsFalsyOr
    rw [if_pos h]

/-- Witness for C3: one registered resource of size 500, latency 200, one
prediction of probability 3/4. -/
theorem scoreResources_safe_witness :
    scoresOK (addResource (mkPrefetcher none none) "/api/products" 500 200 0) 10
      [⟨"/products", 3 / 4⟩] ∧ divisorOK :=
  scoreResources_safe
    (by
      intro pr hpr
      simp only [List.mem_singleton] at hpr
      subst hpr
      norm_num)
    (by
      intro ru hru
      have he : (addResource (mkPrefetcher none none) "/api/products" 500 200 0).resources =
          [("/api/products", ⟨500, 200, 0⟩)] := rfl
      rw [he] at hru
      simp only [List.mem_singleton] at hru
      subst hru
      norm_num)
    (by norm_num [mkPrefetcher, addResource, jsOrQ])

/-- Claim C4: when the tracked state equals the current state, `track`
changes nothing at all: no self-loop edge is recorded and the state
(including `currentState`, still the same value) is unchanged. -/
theorem track_self_noop {p : Prefetcher} {s : String} (h : p.currentState = some s)
    (et : String) : track p et s = p := by
  obtain ⟨mp, dr, tr, rs, cs⟩ := p
  simp only at h
  subst h
  unfold track
  dsimp only
  rw [if_neg (by simp : ¬ (s ≠ "" ∧ s ≠ s))]

/-- Witness for C4: tracking the state a second time in a row. -/
theorem track_self_noop_witness :
    track (track (mkPrefetcher none none) "pv" "/a") "pv" "/a" =
      track (mkPrefetcher none none) "pv" "/a" :=
  track_self_noop rfl "pv"

/-- Claim C5: in every state reachable by the public operations, every
stored transition count is at least 1. -/
theorem reachable_counts_ge_one {p : Prefetcher} (hr : Reachable p) : countsOK p :=
  reachable_countsOK hr

/-- Witness for C5 on the sample history. -/
theorem reachable_counts_ge_one_witness : countsOK exampleState :=
  reachable_counts_ge_one
    (Reachable.track "pv" "/home" (Reachable.track "pv" "/products"
      (Reachable.track "pv" "/home" (Reachable.init none none))))

/-- Claim C6: when `predictNext` or `scoreResources` produces an empty list,
`optimize` returns normally with the state unchanged and no fetch
dispatched. -/
theorem optimize_early_return {p : Prefetcher} {now : ℚ} {fetchOk : String → Bool}
    {doneAt : String → ℚ}
    (h : predictNext p = [] ∨ scoreResources p now (predictNext p) = []) :
    optimize p now fetchOk doneAt = (p, []) := by
  unfold optimize
  rcases h with h | h
  · rw [if_pos (by rw [h]; rfl)]
  · by_cases h1 : (predictNext p).length = 0
    · rw [if_pos h1]
    · rw [if_neg h1]
      dsimp only
      rw [if_pos (by rw [h]; rfl)]

/-- Witness for C6: a freshly constructed prefetcher has no predictions, so
`optimize` is a no-op. -/
theorem optimize_early_return_witness :
    optimize (mkPrefetcher none none) 0 (fun _ => true) (fun _ => 0) =
      (mkPrefetcher none none, []) :=
  optimize_early_return (Or.inl rfl)

/-- Claim C7: whenever the current state has a recorded inner mapping, the
predictions are exactly one per destination with probability count / total
(a permutation of the mapped inner list), sorted by probability
descending. -/
theorem predictNext_distribution_sorted {p : Prefetcher} {cs : String} {nextMap : AList ℕ}
    (h1 : p.currentState = some cs) (h2 : cs ≠ "")
    (h3 : alistGet p.transitions cs = some nextMap) :
    (predictNext p).Perm
      (nextMap.map (fun e =>
        { state := e.1,
          probability := (e.2 : ℚ) / (((nextMap.map (·.2)).sum : ℕ) : ℚ) })) ∧
    (predictNext p).Pairwise (fun a b => b.probability ≤ a.probability) :=
  ⟨predictNext_perm h1 h2 h3, predictNext_sorted_desc h1 h2 h3⟩

/-- Witness for C7 on the sample history. -/
theorem predictNext_distribution_sorted_witness :
    (predictNext exampleState).Perm
      ([("/products", 1)].map (fun e : String × ℕ =>
        { state := e.1,
          probability := (e.2 : ℚ) / ((([("/products", (1 : ℕ))].map (·.2)).sum : ℕ) : ℚ) })) ∧
    (predictNext exampleState).Pairwise (fun a b => b.probability ≤ a.probability) :=
  predictNext_distribution_sorted rfl (by decide) rfl

/-- Claim C8: within one `prefetch` batch, a URL whose fetch fails keeps its
registry entry exactly as it was, while any dispatched URL whose fetch
succeeds and is registered gets its `lastUsed` refreshed to its completion
time; the embedding of the batch is a total function, so the operation
always resolves. -/
theorem prefetch_failure_isolation (p : Prefetcher) (cands : List ScoredCandidate)
    (fetchOk : String → Bool) (doneAt : String → ℚ) (u : String) :
    (fetchOk u = false →
      alistGet (prefetchStep p cands fetchOk doneAt).1.resources u = alistGet p.resources u) ∧
    (∀ r : ResourceEntry, fetchOk u = true → u ∈ (prefetchStep p cands fetchOk doneAt).2 →
      alistGet p.resources u = some r →
      alistGet (prefetchStep p cands fetchOk doneAt).1.resources u =
        some { r with lastUsed := doneAt u }) := by
  constructor
  · intro hf
    exact foldl_touchOne_get_of_not_ok hf _ _
  · intro r hf hm hg
    exact foldl_touchOne_get_of_ok hf _ _ r hg hm

/-- Witness for C8: the fetch of "ok" succeeds and its entry is refreshed to
time 99; the fetch of "bad" fails in the same batch and its entry is kept. -/
theorem prefetch_failure_isolation_witness :
    alistGet (prefetchStep twoResourceState [⟨"ok", 0⟩, ⟨"bad", 0⟩]
        (fun s => s == "ok") (fun _ => 99)).1.resources "bad" =
      alistGet twoResourceState.resources "bad" ∧
    alistGet (prefetchStep twoResourceState [⟨"ok", 0⟩, ⟨"bad", 0⟩]
        (fun s => s == "ok") (fun _ => 99)).1.resources "ok" = some ⟨1, 1, 99⟩ :=
  ⟨(prefetch_failure_isolation twoResourceState [⟨"ok", 0⟩, ⟨"bad", 0⟩]
      (fun s => s == "ok") (fun _ => 99) "bad").1 rfl,
   (prefetch_failure_isolation twoResourceState [⟨"ok", 0⟩, ⟨"bad", 0⟩]
      (fun s => s == "ok") (fun _ => 99) "ok").2 ⟨1, 1, 0⟩ rfl (by decide) rfl⟩

/-- Claim C9: the methods `predictNext` and `scoreResources`, embedded as
state transformers, leave the receiver state untouched — their bodies assign
to no field, so both are pure readers of the stores. -/
theorem predict_score_pure_readers (p : Prefetcher) (now : ℚ)
    (predictions : List Prediction) :
    (predictNextM p).1 = p ∧ (scoreResourcesM p now predictions).1 = p :=
  ⟨rfl, rfl⟩

/-- Claim C10: the empty string is falsy, so it behaves as "no current
state": `track` from it records no edge (only reassigning `currentState`)
and `predictNext` returns the empty list. -/
theorem empty_string_state_falsy {p : Prefetcher} (h : p.currentState = some "")
    (et s : String) :
    (s ≠ "" → (track p et s).transitions = p.transitions ∧
      (track p et s).currentState = some s) ∧
    predictNext p = [] := by
  constructor
  · intro _hs
    unfold track
    rw [h]
    dsimp only
    rw [if_neg (by simp : ¬ ("" ≠ "" ∧ "" ≠ s))]
    exact ⟨rfl, rfl⟩
  · unfold predictNext
    rw [h]
    dsimp only
    rw [if_pos rfl]

/-- Witness for C10: after tracking the empty string first, tracking a
nonempty state records no edge, and `predictNext` is empty. -/
theorem empty_string_state_falsy_witness :
    ((track emptyStringState "y" "/a").transitions = emptyStringState.transitions ∧
      (track emptyStringState "y" "/a").currentState = some "/a") ∧
    predictNext emptyStringState = [] :=
  ⟨(empty_string_state_falsy rfl "y" "/a").1 (by decide),
   (empty_string_state_falsy rfl "y" "/a").2⟩

end PrefetchPredict
